import Mathlib

/-!
Verification development for the `devtypes` library of compile-time
TypeScript type transformations.

The library has no runtime code: every artifact is a type alias the
compiler evaluates.  We shallowly embed the fragment of the TypeScript
type universe the claims need as the inductive `Ty` below, embed the
runtime values a type accepts as `Value`, and translate each alias of
the source into a Lean function on `Ty`.  Object types are association
lists of fields `(key, value type, optional?)`; intersections of
object types with disjoint key sets (as produced by `Simplify` in the
source) are flattened into a single field list.
-/

mutual

/-- A fragment of the TypeScript type universe: `any`, `unknown`, `never`,
the primitives `string`, `number`, `boolean`, their literal types,
`undefined`, `null`, binary unions, arrays, and structural object types
whose fields carry a key, a value type and an optionality flag. -/
inductive Ty where
  | any : Ty
  | unknown : Ty
  | never : Ty
  | str : Ty
  | num : Ty
  | bool : Ty
  | strLit : String → Ty
  | numLit : Int → Ty
  | boolLit : Bool → Ty
  | undef : Ty
  | nul : Ty
  | union : Ty → Ty → Ty
  | arr : Ty → Ty
  | obj : Fields → Ty

/-- The member list of an object type: each field is a key, a value type
and an optionality flag (`true` for `key?: T`). -/
inductive Fields where
  | nil : Fields
  | cons : String → Ty → Bool → Fields → Fields

end

deriving instance DecidableEq for Ty
deriving instance Repr for Ty

/-- Embedding of `src/types/condition.d.ts` `If`:
`Cond extends true ? Then : Else`.  `Cond` is constrained to `boolean`
in the source; since `Cond` is a naked type parameter the conditional
distributes over unions, `boolean` behaves as the union `true | false`,
and `never` (the empty union) yields `never`. -/
def If : Ty → Ty → Ty → Ty
  | .boolLit true, t, _ => t
  | .boolLit false, _, e => e
  | .bool, t, e => .union t e
  | .never, _, _ => .never
  | .union a b, t, e => .union (If a t e) (If b t e)
  | _, _, e => e

/-- `If` with its `Else` parameter left at the source default `never`. -/
def IfDefault (cond then_ : Ty) : Ty := If cond then_ .never

/-- Embedding of `IfAll`: tuples of boolean conditions are lists of
condition types; a non-empty tuple matches `[infer H, ...infer R]` and
recurses through `If`, the empty tuple resolves to `Then`. -/
def IfAll : List Ty → Ty → Ty → Ty
  | [], t, _ => t
  | h :: r, t, e => If h (IfAll r t e) e

/-- Embedding of `IfAny`: `Then` as soon as one condition holds, `Else`
for the empty tuple. -/
def IfAny : List Ty → Ty → Ty → Ty
  | [], _, e => e
  | h :: r, t, e => If h t (IfAny r t e)

/-- Embedding of `IfNon`: `If< IfAny< T, false, true >, Then, Else >`. -/
def IfNon (conds : List Ty) (then_ else_ : Ty) : Ty :=
  If (IfAny conds (.boolLit false) (.boolLit true)) then_ else_

/-- Embedding of the variance trick of `IfEquals`:
`(<T>() => T extends X ? 1 : 2) extends (<T>() => T extends Y ? 1 : 2)`
holds exactly when the checker deems `X` and `Y` identical.  We model
checker identity as structural identity of the (canonical-form) `Ty`
terms. -/
def identicalTy (x y : Ty) : Bool := decide (x = y)

/-- Embedding of `IfEquals< X, Y, A, B >`. -/
def IfEquals (x y a b : Ty) : Ty := if identicalTy x y then a else b

/-- Embedding of `Equals< A, B > = IfEquals< A, B, true, false >`. -/
def Equals (a b : Ty) : Ty := IfEquals a b (.boolLit true) (.boolLit false)

/-- The key set `keyof T` of an object type, as a list of literal keys. -/
def Fields.keys : Fields → List String
  | .nil => []
  | .cons k _ _ r => k :: keys r

/-- Field lookup: the value type and optionality flag at a key. -/
def Fields.lookup : Fields → String → Option (Ty × Bool)
  | .nil, _ => none
  | .cons k t o r, q => if k = q then some (t, o) else lookup r q

/-- Embedding of the builtin `Pick< T, K >` for a key set given as a list
of literal keys: keep exactly the fields whose key lies in `K`. -/
def Pick : Fields → List String → Fields
  | .nil, _ => .nil
  | .cons k t o r, ks => if k ∈ ks then .cons k t o (Pick r ks) else Pick r ks

/-- Embedding of the builtin `Partial< T >`: every field becomes optional. -/
def PartialT : Fields → Fields
  | .nil => .nil
  | .cons k t _ r => .cons k t true (PartialT r)

/-- Embedding of the builtin `Required< T >`: every field becomes required. -/
def RequiredT : Fields → Fields
  | .nil => .nil
  | .cons k t _ r => .cons k t false (RequiredT r)

/-- Embedding of the builtin `Exclude< A, B >` on unions of string
literal keys: the keys of `A` that are not keys of `B`. -/
def excludeKeys (a b : List String) : List String :=
  a.filter (fun k => decide (k ∉ b))

/-- Intersection of two object types, flattened into one member list as
`Simplify` does.  The library only intersects object types with
disjoint key sets (`StrictSubset`, `Merge`), where the intersection is
exactly the union of the members. -/
def interObj : Fields → Fields → Fields
  | .nil, g => g
  | .cons k t o r, g => .cons k t o (interObj r g)

/-- Embedding of `src/types/constraints.d.ts` `ExtractFrom< T, K > =
Partial< Pick< T, K > >`. -/
def ExtractFrom (t : Fields) (k : List String) : Fields := PartialT (Pick t k)

/-- Embedding of `RequireFrom< T, K > = Required< Pick< T, K > >`. -/
def RequireFrom (t : Fields) (k : List String) : Fields := RequiredT (Pick t k)

/-- Embedding of `StrictSubset< T, R, O > = RequireFrom< T, R > &
ExtractFrom< T, O >`. -/
def StrictSubset (t : Fields) (r o : List String) : Fields :=
  interObj (RequireFrom t r) (ExtractFrom t o)

/-- Embedding of `src/types/collections.d.ts` `Merge< Left, Right > =
Simplify< Pick< Left, Exclude< keyof Left, keyof Right > > & Right >`. -/
def Merge (left right : Fields) : Fields :=
  interObj (Pick left (excludeKeys left.keys right.keys)) right

/-- A type found by field lookup is structurally smaller than the member
list containing it (used for termination of the mutual recursions that
follow a lookup). -/
theorem Fields.lookup_sizeOf : ∀ (f : Fields) (q : String) (t : Ty) (o : Bool),
    f.lookup q = some (t, o) → sizeOf t < sizeOf f
  | .nil, _, _, _, h => by simp [Fields.lookup] at h
  | .cons k t2 o2 r, q, t, o, h => by
    by_cases hk : k = q
    · simp [Fields.lookup, hk] at h
      simp [h.1]
      omega
    · simp [Fields.lookup, hk] at h
      have := Fields.lookup_sizeOf r q t o h
      simp
      omega

mutual

/-- Embedding of the checker's structural assignability test `A extends B`
(the relation behind every conditional type in the library), restricted
to the `Ty` universe: `any` is assignable in both directions, everything
is assignable to `unknown`, `never` to everything, literals to their
primitives, unions member-wise, arrays covariantly, and object types by
width-and-depth subtyping over their members. -/
def tyExtends : Ty → Ty → Bool
  | .any, _ => true
  | _, .any => true
  | .never, _ => true
  | _, .unknown => true
  | .union a b, c => tyExtends a c && tyExtends b c
  | a, .union b c => tyExtends a b || tyExtends a c
  | .str, .str => true
  | .strLit _, .str => true
  | .strLit a, .strLit b => a == b
  | .num, .num => true
  | .numLit _, .num => true
  | .numLit a, .numLit b => a == b
  | .bool, .bool => true
  | .boolLit _, .bool => true
  | .boolLit a, .boolLit b => a == b
  | .undef, .undef => true
  | .nul, .nul => true
  | .arr a, .arr b => tyExtends a b
  | .obj fs, .obj gs => fieldsExtend fs gs
  | _, _ => false
termination_by a b => sizeOf a + sizeOf b
decreasing_by all_goals (simp_wf; try omega)

/-- Member-wise assignability of object types: every target member must
be matched in the source — a missing source member is tolerated only
for an optional target member, and a source member may not weaken a
required target member to optional. -/
def fieldsExtend : Fields → Fields → Bool
  | _, .nil => true
  | fs, .cons k s sopt r =>
    (match hlk : fs.lookup k with
     | some (t, topt) => tyExtends t s && (!topt || sopt)
     | none => sopt) && fieldsExtend fs r
termination_by f g => sizeOf f + sizeOf g
decreasing_by
  all_goals simp_wf
  all_goals (first
    | omega
    | (have h9 := Fields.lookup_sizeOf _ _ _ _ hlk; omega))

end

/-- `keyof T` as a list of literal keys: the member keys of an object
type, and for a union the keys common to all members
(`keyof (A | B) = keyof A & keyof B`).  The built-in method keys of
primitives are not modelled. -/
def keyofTy : Ty → List String
  | .obj fs => fs.keys
  | .union a b => (keyofTy a).filter (fun k => decide (k ∈ keyofTy b))
  | _ => []

/-- Union formation: a `never` member is absorbed
(`X | never = X`), as when the checker collects the branches of a
distributed conditional. -/
def unionNorm (a b : Ty) : Ty :=
  if a = .never then b
  else if b = .never then a
  else .union a b

/-- Embedding of `src/types/guard.d.ts` `Exact< T, Shape > =
T extends Shape ? Exclude< keyof T, keyof Shape > extends never ? T :
never : never`.  `T` is a naked type parameter, so the outer
conditional distributes: a union `T` is tested memberwise (with
`never` results absorbed during union formation) and `never` (the
empty union) yields `never`.  A conditional over `any`, which the
checker resolves to the union of both branches, is outside the
modelled fragment. -/
def Exact : Ty → Ty → Ty
  | .union a b, shape => unionNorm (Exact a shape) (Exact b shape)
  | .never, _ => .never
  | t, shape =>
    if tyExtends t shape then
      if excludeKeys (keyofTy t) (keyofTy shape) = [] then t else .never
    else .never

mutual

/-- The runtime values of the structurally-typed language: strings,
numbers, booleans, `undefined`, `null`, objects (association lists of
properties) and arrays. -/
inductive Value where
  | vStr : String → Value
  | vNum : Int → Value
  | vBool : Bool → Value
  | vUndef : Value
  | vNull : Value
  | vObj : VEntries → Value
  | vArr : VList → Value

/-- Property list of an object value. -/
inductive VEntries where
  | nil : VEntries
  | cons : String → Value → VEntries → VEntries

/-- Element list of an array value. -/
inductive VList where
  | nil : VList
  | cons : Value → VList → VList

end

/-- Property lookup in an object value. -/
def VEntries.lookup : VEntries → String → Option Value
  | .nil, _ => none
  | .cons k v r, q => if k = q then some v else lookup r q

/-- A value found by property lookup is structurally smaller than the
property list containing it. -/
theorem VEntries.lookup_sizeOf_val : ∀ (m : VEntries) (q : String) (w : Value),
    m.lookup q = some w → sizeOf w < sizeOf m
  | .nil, _, _, h => by simp [VEntries.lookup] at h
  | .cons k v r, q, w, h => by
    by_cases hk : k = q
    · simp [VEntries.lookup, hk] at h
      simp [← h]
      omega
    · simp [VEntries.lookup, hk] at h
      have := VEntries.lookup_sizeOf_val r q w h
      simp
      omega

mutual

/-- The semantic meaning of a type: which runtime values it accepts.
`any` and `unknown` accept every value, `never` accepts none,
primitives and literals accept the matching constants, unions accept
the union of their members' values, arrays accept arrays of accepted
elements, and an object type accepts any object value that provides an
accepted value for every required field (extra properties are allowed:
structural width subtyping). -/
def accepts : Ty → Value → Bool
  | .any, _ => true
  | .unknown, _ => true
  | .never, _ => false
  | .str, .vStr _ => true
  | .num, .vNum _ => true
  | .bool, .vBool _ => true
  | .strLit s, .vStr s2 => s == s2
  | .numLit n, .vNum n2 => n == n2
  | .boolLit b, .vBool b2 => b == b2
  | .undef, .vUndef => true
  | .nul, .vNull => true
  | .union a b, v => accepts a v || accepts b v
  | .arr t, .vArr l => acceptsList t l
  | .obj fs, .vObj m => acceptsFields fs m
  | _, _ => false
termination_by t v => sizeOf t + sizeOf v
decreasing_by all_goals (simp_wf; try omega)

/-- Field-wise acceptance: a present property must be accepted by the
field's type; an absent property is tolerated only for optional fields. -/
def acceptsFields : Fields → VEntries → Bool
  | .nil, _ => true
  | .cons k t o r, m =>
    (match hlv : m.lookup k with
     | some w => accepts t w
     | none => o) && acceptsFields r m
termination_by f m => sizeOf f + sizeOf m
decreasing_by
  all_goals simp_wf
  all_goals (first
    | omega
    | (have h9 := VEntries.lookup_sizeOf_val _ _ _ hlv; omega))

/-- Element-wise acceptance for arrays. -/
def acceptsList : Ty → VList → Bool
  | _, .nil => true
  | t, .cons v r => accepts t v && acceptsList t r
termination_by t l => sizeOf t + sizeOf l
decreasing_by all_goals (simp_wf; try omega)

end

/-- The test `X extends object` used inside the deep transforms: object
and array types are object-like, and a union is (as a whole) assignable
to `object` exactly when every member is. -/
def isObjLike : Ty → Bool
  | .obj _ => true
  | .arr _ => true
  | .union a b => isObjLike a && isObjLike b
  | _ => false

/-- The non-distributive test `X extends Array< infer U >` used by the
per-field templates of the deep transforms, together with the inferred
element `U`: an array type yields its element; a union is matched as a
whole, so a union of array types yields the union of their elements
(one array match, not a union of array matches); `never` is assignable
to `Array< U >` with `U = never`; everything else fails the match. -/
def arrayElem : Ty → Option Ty
  | .arr u => some u
  | .never => some .never
  | .union a b =>
    match arrayElem a, arrayElem b with
    | some x, some y => some (.union x y)
    | _, _ => none
  | _ => none

/-- The inferred array element is no larger than the matched type. -/
theorem arrayElem_sizeOf : ∀ (t u : Ty), arrayElem t = some u → sizeOf u ≤ sizeOf t
  | .arr v, u, h => by
    simp [arrayElem] at h
    simp [← h]
  | .never, u, h => by
    simp [arrayElem] at h
    simp [← h]
  | .union a b, u, h => by
    rcases ha : arrayElem a with _ | x <;> rcases hb : arrayElem b with _ | y <;>
      simp [arrayElem, ha, hb] at h
    have h1 := arrayElem_sizeOf a x ha
    have h2 := arrayElem_sizeOf b y hb
    simp [← h]
    omega
  | .any, u, h => by simp [arrayElem] at h
  | .unknown, u, h => by simp [arrayElem] at h
  | .str, u, h => by simp [arrayElem] at h
  | .num, u, h => by simp [arrayElem] at h
  | .bool, u, h => by simp [arrayElem] at h
  | .strLit _, u, h => by simp [arrayElem] at h
  | .numLit _, u, h => by simp [arrayElem] at h
  | .boolLit _, u, h => by simp [arrayElem] at h
  | .undef, u, h => by simp [arrayElem] at h
  | .nul, u, h => by simp [arrayElem] at h
  | .obj _, u, h => by simp [arrayElem] at h

mutual

/-- Embedding of `src/types/collections.d.ts` `DeepPartial< T >`, the
homomorphic mapped type `{ [P in keyof T]?: ... }`.  On an object type
it maps the fields; being homomorphic it distributes over unions and
leaves primitives unchanged; on an array it applies the per-field
template to the element type (we drop the `| undefined` the `?`
modifier adds to array elements, which cannot affect key structure). -/
def DeepPartial : Ty → Ty
  | .obj fs => .obj (deepPartialFields fs)
  | .union a b => .union (DeepPartial a) (DeepPartial b)
  | .arr u => .arr (deepPartialVal u)
  | t => t
termination_by t => 2 * sizeOf t
decreasing_by
  all_goals simp_wf
  all_goals omega

/-- The field map of `DeepPartial`: every field becomes optional and its
value type goes through the per-field template. -/
def deepPartialFields : Fields → Fields
  | .nil => .nil
  | .cons k t _ r => .cons k (deepPartialVal t) true (deepPartialFields r)
termination_by fs => 2 * sizeOf fs
decreasing_by
  all_goals simp_wf
  all_goals omega

/-- The per-field template of `DeepPartial`:
`T[P] extends Array< infer U > ? DeepPartial< U >[] :
 T[P] extends object ? DeepPartial< T[P] > : T[P]`.
The `Array< infer U >` test is non-distributive (`T[P]` is not a naked
type parameter), so a union of array types matches as a whole and the
template yields one array of the transformed union element. -/
def deepPartialVal (t : Ty) : Ty :=
  match harr : arrayElem t with
  | some u => .arr (DeepPartial u)
  | none => if isObjLike t then DeepPartial t else t
termination_by 2 * sizeOf t + 1
decreasing_by
  all_goals simp_wf
  all_goals (first
    | omega
    | (have h9 := arrayElem_sizeOf _ _ harr; omega))

end

mutual

/-- Embedding of `DeepRequired< T >`, the homomorphic mapped type
`{ [P in keyof T]-?: ... }` (same evaluation rules as `DeepPartial`). -/
def DeepRequired : Ty → Ty
  | .obj fs => .obj (deepRequiredFields fs)
  | .union a b => .union (DeepRequired a) (DeepRequired b)
  | .arr u => .arr (deepRequiredVal u)
  | t => t
termination_by t => 2 * sizeOf t
decreasing_by
  all_goals simp_wf
  all_goals omega

/-- The field map of `DeepRequired`: every field becomes required and
its value type goes through the per-field template. -/
def deepRequiredFields : Fields → Fields
  | .nil => .nil
  | .cons k t _ r => .cons k (deepRequiredVal t) false (deepRequiredFields r)
termination_by fs => 2 * sizeOf fs
decreasing_by
  all_goals simp_wf
  all_goals omega

/-- The per-field template of `DeepRequired` (same non-distributive
`Array< infer U >` match as `deepPartialVal`). -/
def deepRequiredVal (t : Ty) : Ty :=
  match harr : arrayElem t with
  | some u => .arr (DeepRequired u)
  | none => if isObjLike t then DeepRequired t else t
termination_by 2 * sizeOf t + 1
decreasing_by
  all_goals simp_wf
  all_goals (first
    | omega
    | (have h9 := arrayElem_sizeOf _ _ harr; omega))

end

/-- One step of a key path: a property key or an array-element step. -/
inductive Step where
  | key : String → Step
  | idx : Step
deriving DecidableEq, Repr

mutual

/-- All key paths of a type: every sequence of property keys and
array-element steps that reaches a property key at some nesting level.
Unions contribute the paths of all their members, so the key paths are
exactly "which keys exist at which nested position". -/
def keyPaths : Ty → List (List Step)
  | .obj fs => keyPathsFields fs
  | .arr u => (keyPaths u).map (fun p => Step.idx :: p)
  | .union a b => keyPaths a ++ keyPaths b
  | _ => []
termination_by t => sizeOf t

/-- Key paths of an object type's members: each field contributes its
own key and, below it, the paths of its value type. -/
def keyPathsFields : Fields → List (List Step)
  | .nil => []
  | .cons k t _ r =>
    [Step.key k] :: ((keyPaths t).map (fun p => Step.key k :: p) ++ keyPathsFields r)
termination_by fs => sizeOf fs

end

/-- Embedding of `EqualsAll< T >`: a tuple with at least two types
matches `[infer A, infer B, ...infer Rest]` and recurses on the tail
`[B, ...Rest]`; shorter tuples resolve to `true`. -/
def EqualsAll : List Ty → Ty
  | a :: b :: rest => If (Equals a b) (EqualsAll (b :: rest)) (.boolLit false)
  | _ => .boolLit true

/-- Embedding of `EqualsAny< T >`: `true` as soon as two neighboring
types are equal. -/
def EqualsAny : List Ty → Ty
  | a :: b :: rest => If (Equals a b) (.boolLit true) (EqualsAny (b :: rest))
  | _ => .boolLit false

/-- Filtering with a predicate that fails on some member of the list
strictly shrinks it. -/
theorem length_filter_lt_of_mem {α : Type} (p : α → Bool) :
    ∀ (l : List α) (x : α), x ∈ l → p x = false → (l.filter p).length < l.length := by
  intro l x hmem hp
  induction l with
  | nil => simp at hmem
  | cons h r ih =>
    rcases List.mem_cons.mp hmem with h1 | h1
    · subst h1
      simp [List.filter, hp]
      have := List.length_filter_le p r
      omega
    · by_cases hph : p h
      · simp [List.filter, hph]
        exact ih h1
      · simp [List.filter, hph]
        have := ih h1
        have := List.length_filter_le p r
        omega

/-- Removing the last member (and its duplicates) from a non-empty
member list strictly shrinks it. -/
theorem filter_out_last_length (h : Ty) (r : List Ty) :
    ((h :: r).filter
      (fun x => !identicalTy x ((h :: r).getLast (by simp)))).length <
      (h :: r).length := by
  refine length_filter_lt_of_mem _ _ ((h :: r).getLast (by simp))
    (List.getLast_mem _) ?_
  simp [identicalTy]

/-- Embedding of `UnionToTuple< U, T >`.  A union type is modelled by
the list of its members; `UnionToTuple.Last< U >` picks the member the
checker treats as last, and each expansion recurses on
`Exclude< U, Last< U > >` — the union with that member removed — while
prepending it to the accumulator.  `[U] extends [never]` (the empty
union) returns the accumulator. -/
def UnionToTuple : List Ty → List Ty → List Ty
  | [], acc => acc
  | h :: r, acc =>
    UnionToTuple
      ((h :: r).filter (fun x => !identicalTy x ((h :: r).getLast (by simp))))
      ((h :: r).getLast (by simp) :: acc)
termination_by u _ => u.length
decreasing_by
  exact filter_out_last_length h r

/-- Fuel-bounded evaluator for `EqualsAll`: each unit of fuel pays for
one expansion of the self-referential alias; `none` models hitting the
compiler's recursion-depth limit. -/
def EqualsAllFuel : Nat → List Ty → Option Ty
  | 0, _ => none
  | n + 1, a :: b :: rest =>
    (EqualsAllFuel n (b :: rest)).map (fun x => If (Equals a b) x (.boolLit false))
  | _ + 1, _ => some (.boolLit true)

/-- Fuel-bounded evaluator for `IfAll`. -/
def IfAllFuel : Nat → List Ty → Ty → Ty → Option Ty
  | 0, _, _, _ => none
  | n + 1, h :: r, t, e => (IfAllFuel n r t e).map (fun x => If h x e)
  | _ + 1, [], t, _ => some t

/-- Fuel-bounded evaluator for `UnionToTuple`. -/
def UnionToTupleFuel : Nat → List Ty → List Ty → Option (List Ty)
  | 0, _, _ => none
  | _ + 1, [], acc => some acc
  | n + 1, h :: r, acc =>
    UnionToTupleFuel n
      ((h :: r).filter (fun x => !identicalTy x ((h :: r).getLast (by simp))))
      ((h :: r).getLast (by simp) :: acc)

/-- Lookup in a flattened intersection prefers the left operand. -/
theorem Fields.lookup_interObj_some : ∀ (f g : Fields) (q : String) (x : Ty × Bool),
    f.lookup q = some x → (interObj f g).lookup q = some x
  | .nil, _, _, _, h => by simp [Fields.lookup] at h
  | .cons k t o r, g, q, x, h => by
    by_cases hk : k = q
    · simp [Fields.lookup, hk] at h
      simp [interObj, Fields.lookup, hk, h]
    · simp [Fields.lookup, hk] at h
      simp [interObj, Fields.lookup, hk]
      exact Fields.lookup_interObj_some r g q x h

/-- Lookup in a flattened intersection falls through to the right
operand when the left one misses. -/
theorem Fields.lookup_interObj_none : ∀ (f g : Fields) (q : String),
    f.lookup q = none → (interObj f g).lookup q = g.lookup q
  | .nil, _, _, _ => by simp [interObj]
  | .cons k t o r, g, q, h => by
    by_cases hk : k = q
    · simp [Fields.lookup, hk] at h
    · simp [Fields.lookup, hk] at h
      simp [interObj, Fields.lookup, hk]
      exact Fields.lookup_interObj_none r g q h

/-- Lookup commutes with `Pick`: present exactly for picked keys. -/
theorem Fields.lookup_Pick : ∀ (f : Fields) (ks : List String) (q : String),
    (Pick f ks).lookup q = if q ∈ ks then f.lookup q else none
  | .nil, ks, q => by by_cases h : q ∈ ks <;> simp [Pick, Fields.lookup, h]
  | .cons k t o r, ks, q => by
    by_cases hks : k ∈ ks
    · by_cases hk : k = q
      · subst hk
        simp [Pick, hks, Fields.lookup]
      · simp [Pick, hks, Fields.lookup, hk]
        exact Fields.lookup_Pick r ks q
    · by_cases hk : k = q
      · subst hk
        simp [Pick, hks, Fields.lookup, Fields.lookup_Pick r ks k]
      · simp [Pick, hks, Fields.lookup, hk, Fields.lookup_Pick r ks q]

/-- Lookup commutes with `Partial`: only the flag changes. -/
theorem Fields.lookup_PartialT : ∀ (f : Fields) (q : String),
    (PartialT f).lookup q = (f.lookup q).map (fun x => (x.1, true))
  | .nil, q => by simp [PartialT, Fields.lookup]
  | .cons k t o r, q => by
    by_cases hk : k = q <;>
      simp [PartialT, Fields.lookup, hk, Fields.lookup_PartialT r q]

/-- Lookup commutes with `Required`: only the flag changes. -/
theorem Fields.lookup_RequiredT : ∀ (f : Fields) (q : String),
    (RequiredT f).lookup q = (f.lookup q).map (fun x => (x.1, false))
  | .nil, q => by simp [RequiredT, Fields.lookup]
  | .cons k t o r, q => by
    by_cases hk : k = q <;>
      simp [RequiredT, Fields.lookup, hk, Fields.lookup_RequiredT r q]

/-- The key list of a flattened intersection. -/
theorem Fields.keys_interObj : ∀ (f g : Fields),
    (interObj f g).keys = f.keys ++ g.keys
  | .nil, g => by simp [interObj, Fields.keys]
  | .cons k t o r, g => by
    simp [interObj, Fields.keys, Fields.keys_interObj r g]

/-- The key list of a picked object. -/
theorem Fields.keys_Pick : ∀ (f : Fields) (ks : List String),
    (Pick f ks).keys = f.keys.filter (fun k => decide (k ∈ ks))
  | .nil, ks => by simp [Pick, Fields.keys]
  | .cons k t o r, ks => by
    by_cases hks : k ∈ ks <;>
      simp [Pick, Fields.keys, hks, Fields.keys_Pick r ks]

/-- `Partial` does not change the key list. -/
theorem Fields.keys_PartialT : ∀ (f : Fields), (PartialT f).keys = f.keys
  | .nil => rfl
  | .cons k t o r => by simp [PartialT, Fields.keys, Fields.keys_PartialT r]

/-- `Required` does not change the key list. -/
theorem Fields.keys_RequiredT : ∀ (f : Fields), (RequiredT f).keys = f.keys
  | .nil => rfl
  | .cons k t o r => by simp [RequiredT, Fields.keys, Fields.keys_RequiredT r]

/-- A key is in the key list exactly when lookup succeeds. -/
theorem Fields.mem_keys_iff_lookup : ∀ (f : Fields) (q : String),
    q ∈ f.keys ↔ (f.lookup q).isSome
  | .nil, q => by simp [Fields.keys, Fields.lookup]
  | .cons k t o r, q => by
    by_cases hk : k = q
    · simp [Fields.keys, Fields.lookup, hk]
    · have hk2 : ¬ q = k := fun h => hk h.symm
      simp [Fields.keys, Fields.lookup, hk, hk2,
        Fields.mem_keys_iff_lookup r q]

/-- Membership in an excluded key set. -/
theorem mem_excludeKeys (a b : List String) (k : String) :
    k ∈ excludeKeys a b ↔ (k ∈ a ∧ k ∉ b) := by
  simp [excludeKeys, List.mem_filter]

/-- `Exclude< keyof T, keyof Shape > extends never` means the excluded
key list is empty, i.e. every key of `T` is a key of `Shape`. -/
theorem excludeKeys_eq_nil (a b : List String) :
    excludeKeys a b = [] ↔ ∀ k ∈ a, k ∈ b := by
  constructor
  · intro h k hk
    by_contra hkb
    have : k ∈ excludeKeys a b := (mem_excludeKeys a b k).mpr ⟨hk, hkb⟩
    simp [h] at this
  · intro h
    rcases he : excludeKeys a b with _ | ⟨k, rest⟩
    · rfl
    · have : k ∈ excludeKeys a b := by simp [he]
      rcases (mem_excludeKeys a b k).mp this with ⟨hka, hkb⟩
      exact absurd (h k hka) hkb

/-- With fuel exceeding the tuple length, the fuelled evaluator of
`EqualsAll` completes and agrees with the recursive alias. -/
theorem EqualsAllFuel_complete : ∀ (n : Nat) (l : List Ty),
    l.length < n → EqualsAllFuel n l = some (EqualsAll l)
  | 0, l, h => absurd h (Nat.not_lt_zero _)
  | n + 1, [], _ => by simp [EqualsAllFuel, EqualsAll]
  | n + 1, [a], _ => by simp [EqualsAllFuel, EqualsAll]
  | n + 1, a :: b :: rest, h => by
    have ih := EqualsAllFuel_complete n (b :: rest) (by simp at h ⊢; omega)
    simp [EqualsAllFuel, EqualsAll, ih]

/-- With fuel exceeding the tuple length, the fuelled evaluator of
`IfAll` completes and agrees with the recursive alias. -/
theorem IfAllFuel_complete : ∀ (n : Nat) (l : List Ty) (t e : Ty),
    l.length < n → IfAllFuel n l t e = some (IfAll l t e)
  | 0, l, _, _, h => absurd h (Nat.not_lt_zero _)
  | n + 1, [], t, e, _ => by simp [IfAllFuel, IfAll]
  | n + 1, c :: r, t, e, h => by
    have ih := IfAllFuel_complete n r t e (by simp at h ⊢; omega)
    simp [IfAllFuel, IfAll, ih]

/-- With fuel exceeding the union's member count, the fuelled evaluator
of `UnionToTuple` completes and agrees with the recursive alias: each
expansion removes one member from the union. -/
theorem UnionToTupleFuel_complete : ∀ (n : Nat) (u acc : List Ty),
    u.length < n → UnionToTupleFuel n u acc = some (UnionToTuple u acc)
  | 0, u, _, h => absurd h (Nat.not_lt_zero _)
  | _ + 1, [], acc, _ => by simp [UnionToTupleFuel, UnionToTuple]
  | n + 1, h :: r, acc, hlen => by
    have hfl := filter_out_last_length h r
    simp only [List.length_cons] at hfl
    have ih := UnionToTupleFuel_complete n
      ((h :: r).filter (fun x => !identicalTy x ((h :: r).getLast (by simp))))
      ((h :: r).getLast (by simp) :: acc)
      (by simp at hlen; omega)
    simp [UnionToTupleFuel, UnionToTuple, ih]

/-- C1 (counterexample): the claim "`Equals< A, B >` resolves to `true`
if and only if `A` and `B` accept exactly the same set of values" fails
at the concrete input `A = any`, `B = unknown`: both types accept every
value, yet the variance trick compares checker identity and resolves
`Equals< any, unknown >` to `false`. -/
theorem Equals_value_set_iff_fails :
    (∀ v : Value, accepts Ty.any v = accepts Ty.unknown v) ∧
    Equals Ty.any Ty.unknown ≠ Ty.boolLit true := by
  constructor
  · intro v
    simp [accepts]
  · intro h
    simp [Equals, IfEquals, identicalTy] at h

/-- C1 (amended): `Equals< A, B >` resolving to `true` implies that `A`
and `B` accept exactly the same set of values; the converse does not
hold, because the variance trick decides the checker's identity
relation, not value-set equality. -/
theorem Equals_implies_same_value_set (a b : Ty)
    (h : Equals a b = Ty.boolLit true) : ∀ v, accepts a v = accepts b v := by
  have hab : a = b := by
    by_cases hc : a = b
    · exact hc
    · simp [Equals, IfEquals, identicalTy, hc] at h
  intro v
  rw [hab]

/-- C1 (witness): the amended theorem applied at `A = B = string`. -/
theorem Equals_implies_same_value_set_witness :
    Equals Ty.str Ty.str = Ty.boolLit true ∧
    (∀ v, accepts Ty.str v = accepts Ty.str v) :=
  ⟨by decide, Equals_implies_same_value_set Ty.str Ty.str (by decide)⟩

/-- C2: for an object type `T`, a key set `R ⊆ keyof T` and `O` the
remaining keys of `T`, `StrictSubset< T, R, O >` keeps every key of `T`
and no others, marks the keys of `R` required and all other keys of `T`
optional, and preserves every key's original value type. -/
theorem StrictSubset_required_and_optional (t : Fields) (rk : List String)
    (hsub : ∀ k ∈ rk, k ∈ t.keys) (q : String) :
    (∀ ty o, t.lookup q = some (ty, o) →
      (StrictSubset t rk (excludeKeys t.keys rk)).lookup q
        = some (ty, decide (q ∉ rk))) ∧
    (t.lookup q = none →
      (StrictSubset t rk (excludeKeys t.keys rk)).lookup q = none) := by
  constructor
  · intro ty o hlt
    by_cases hq : q ∈ rk
    · have h1 : (RequireFrom t rk).lookup q = some (ty, false) := by
        simp [RequireFrom, Fields.lookup_RequiredT, Fields.lookup_Pick, hq, hlt]
      have h2 := Fields.lookup_interObj_some _
        (ExtractFrom t (excludeKeys t.keys rk)) q _ h1
      simpa [StrictSubset, hq] using h2
    · have h1 : (RequireFrom t rk).lookup q = none := by
        simp [RequireFrom, Fields.lookup_RequiredT, Fields.lookup_Pick, hq]
      rw [StrictSubset, Fields.lookup_interObj_none _ _ _ h1]
      have hqk : q ∈ t.keys :=
        (Fields.mem_keys_iff_lookup t q).mpr (by simp [hlt])
      have hqO : q ∈ excludeKeys t.keys rk :=
        (mem_excludeKeys _ _ _).mpr ⟨hqk, hq⟩
      simp [ExtractFrom, Fields.lookup_PartialT, Fields.lookup_Pick, hqO, hlt, hq]
  · intro hlt
    have h1 : (RequireFrom t rk).lookup q = none := by
      by_cases hq : q ∈ rk <;>
        simp [RequireFrom, Fields.lookup_RequiredT, Fields.lookup_Pick, hq, hlt]
    rw [StrictSubset, Fields.lookup_interObj_none _ _ _ h1]
    by_cases hqO : q ∈ excludeKeys t.keys rk <;>
      simp [ExtractFrom, Fields.lookup_PartialT, Fields.lookup_Pick, hqO, hlt]

/-- C2 (witness): `StrictSubset` on
`{ id: number; email?: string }` with `R = "id"` makes `email` present
and optional at its original value type. -/
theorem StrictSubset_required_and_optional_witness :
    (StrictSubset (Fields.cons "id" Ty.num false
        (Fields.cons "email" Ty.str true Fields.nil)) ["id"]
      (excludeKeys (Fields.cons "id" Ty.num false
        (Fields.cons "email" Ty.str true Fields.nil)).keys ["id"])).lookup "email"
      = some (Ty.str, true) := by
  have h := (StrictSubset_required_and_optional
    (Fields.cons "id" Ty.num false (Fields.cons "email" Ty.str true Fields.nil))
    ["id"] (by decide) "email").1 Ty.str true (by decide)
  exact h

/-- C3: `If` branches on the test of `Cond` against the literal type
`true`: `If< true, Then, Else >` is `Then`, `If< false, Then, Else >`
is `Else`, and with `Else` omitted the false branch is `never`. -/
theorem If_branches_on_true (then_ else_ : Ty) :
    If (Ty.boolLit true) then_ else_ = then_ ∧
    If (Ty.boolLit false) then_ else_ = else_ ∧
    IfDefault (Ty.boolLit false) then_ = Ty.never :=
  ⟨rfl, rfl, rfl⟩

/-- C6: the self-referential aliases recurse on a structurally smaller
argument (the tail of the tuple, or the union with one member
removed), so on every finite tuple or union their evaluation completes
within fuel one larger than the input's size. -/
theorem recursive_aliases_terminate :
    (∀ l : List Ty, EqualsAllFuel (l.length + 1) l = some (EqualsAll l)) ∧
    (∀ (l : List Ty) (t e : Ty),
      IfAllFuel (l.length + 1) l t e = some (IfAll l t e)) ∧
    (∀ u acc : List Ty,
      UnionToTupleFuel (u.length + 1) u acc = some (UnionToTuple u acc)) :=
  ⟨fun l => EqualsAllFuel_complete (l.length + 1) l (by omega),
   fun l t e => IfAllFuel_complete (l.length + 1) l t e (by omega),
   fun u acc => UnionToTupleFuel_complete (u.length + 1) u acc (by omega)⟩

/-- C8: `Merge` is right-biased: its key set is the union of both key
sets, every key of `Right` carries `Right`'s member (type and
optionality), and every key of `Left` not in `Right` carries `Left`'s
member. -/
theorem Merge_right_biased (l r : Fields) :
    (∀ k, k ∈ (Merge l r).keys ↔ (k ∈ l.keys ∨ k ∈ r.keys)) ∧
    (∀ k x, r.lookup k = some x → (Merge l r).lookup k = some x) ∧
    (∀ k x, r.lookup k = none → l.lookup k = some x →
      (Merge l r).lookup k = some x) := by
  refine ⟨?_, ?_, ?_⟩
  · intro k
    simp [Merge, Fields.keys_interObj, Fields.keys_Pick, List.mem_filter,
      mem_excludeKeys]
    tauto
  · intro k x hr
    have hknr : k ∈ r.keys := (Fields.mem_keys_iff_lookup r k).mpr (by simp [hr])
    have h1 : (Pick l (excludeKeys l.keys r.keys)).lookup k = none := by
      have : k ∉ excludeKeys l.keys r.keys :=
        fun hmem => ((mem_excludeKeys _ _ _).mp hmem).2 hknr
      simp [Fields.lookup_Pick, this]
    rw [Merge, Fields.lookup_interObj_none _ _ _ h1, hr]
  · intro k x hrn hl
    have hknr : k ∉ r.keys := by
      rw [Fields.mem_keys_iff_lookup, hrn]
      simp
    have hkl : k ∈ l.keys := (Fields.mem_keys_iff_lookup l k).mpr (by simp [hl])
    have h1 : (Pick l (excludeKeys l.keys r.keys)).lookup k = some x := by
      have : k ∈ excludeKeys l.keys r.keys :=
        (mem_excludeKeys _ _ _).mpr ⟨hkl, hknr⟩
      simp [Fields.lookup_Pick, this, hl]
    exact Fields.lookup_interObj_some _ _ _ _ h1

/-- C8 (witness): merging `{ a: number; b: string }` with
`{ b: number; c: boolean }` gives `b` its right-hand type `number`. -/
theorem Merge_right_biased_witness :
    (Merge (Fields.cons "a" Ty.num false (Fields.cons "b" Ty.str false Fields.nil))
        (Fields.cons "b" Ty.num false (Fields.cons "c" Ty.bool false Fields.nil))).lookup "b"
      = some (Ty.num, false) :=
  (Merge_right_biased
    (Fields.cons "a" Ty.num false (Fields.cons "b" Ty.str false Fields.nil))
    (Fields.cons "b" Ty.num false (Fields.cons "c" Ty.bool false Fields.nil))).2.1
    "b" (Ty.num, false) (by decide)

/-- C9: the tuple conditionals treat the empty tuple by vacuous truth:
`IfAll< [], Then, Else >` is `Then`, `IfAny< [], Then, Else >` is
`Else`, and `IfNon< [], Then, Else >` is `Then`. -/
theorem empty_tuple_conditionals (then_ else_ : Ty) :
    IfAll [] then_ else_ = then_ ∧
    IfAny [] then_ else_ = else_ ∧
    IfNon [] then_ else_ = then_ :=
  ⟨rfl, rfl, rfl⟩

/-- C10: the equality test is reflexive and symmetric: `Equals< A, A >`
resolves to `true`, and `Equals< A, B >` resolves to the same boolean
type as `Equals< B, A >`. -/
theorem Equals_refl_and_symm :
    (∀ a : Ty, Equals a a = Ty.boolLit true) ∧
    (∀ a b : Ty, Equals a b = Equals b a) := by
  constructor
  · intro a
    simp [Equals, IfEquals, identicalTy]
  · intro a b
    by_cases h : a = b
    · rw [h]
    · have h2 : ¬ b = a := fun x => h x.symm
      simp [Equals, IfEquals, identicalTy, h, h2]

/-- Membership in a mapped list respects membership-equivalence of the
underlying lists. -/
theorem mem_map_congr {α β : Type} {l1 l2 : List α} (h : ∀ q, q ∈ l1 ↔ q ∈ l2)
    (g : α → β) (p : β) : p ∈ l1.map g ↔ p ∈ l2.map g := by
  simp only [List.mem_map]
  constructor
  · rintro ⟨q, hq, e⟩
    exact ⟨q, (h q).mp hq, e⟩
  · rintro ⟨q, hq, e⟩
    exact ⟨q, (h q).mpr hq, e⟩

/-- A successful `Array< infer U >` match preserves key paths: the
paths of `U[]` are exactly the paths of the matched type, even when
that type is a union of array types merged into one array of the
union element. -/
theorem keyPaths_arrayElem : ∀ (t u : Ty), arrayElem t = some u →
    ∀ p, p ∈ keyPaths (Ty.arr u) ↔ p ∈ keyPaths t
  | .arr v, u, h, p => by
    simp [arrayElem] at h
    rw [← h]
  | .never, u, h, p => by
    simp [arrayElem] at h
    simp [← h, keyPaths]
  | .union a b, u, h, p => by
    rcases ha : arrayElem a with _ | x <;> rcases hb : arrayElem b with _ | y <;>
      simp [arrayElem, ha, hb] at h
    have h1 : p ∈ ((keyPaths x).map (fun q => Step.idx :: q)) ↔ p ∈ keyPaths a := by
      simpa [keyPaths] using keyPaths_arrayElem a x ha p
    have h2 : p ∈ ((keyPaths y).map (fun q => Step.idx :: q)) ↔ p ∈ keyPaths b := by
      simpa [keyPaths] using keyPaths_arrayElem b y hb p
    subst h
    simp only [keyPaths, List.map_append, List.mem_append]
    rw [h1, h2]
  | .any, u, h, p => by simp [arrayElem] at h
  | .unknown, u, h, p => by simp [arrayElem] at h
  | .str, u, h, p => by simp [arrayElem] at h
  | .num, u, h, p => by simp [arrayElem] at h
  | .bool, u, h, p => by simp [arrayElem] at h
  | .strLit _, u, h, p => by simp [arrayElem] at h
  | .numLit _, u, h, p => by simp [arrayElem] at h
  | .boolLit _, u, h, p => by simp [arrayElem] at h
  | .undef, u, h, p => by simp [arrayElem] at h
  | .nul, u, h, p => by simp [arrayElem] at h
  | .obj _, u, h, p => by simp [arrayElem] at h

mutual

/-- `DeepPartial` preserves the key paths of its input. -/
theorem keyPaths_DeepPartial : ∀ (t : Ty) (p : List Step),
    p ∈ keyPaths (DeepPartial t) ↔ p ∈ keyPaths t
  | .obj fs, p => by
    simp only [DeepPartial, keyPaths]
    exact keyPathsFields_deepPartialFields fs p
  | .union a b, p => by
    simp only [DeepPartial, keyPaths, List.mem_append]
    rw [keyPaths_DeepPartial a p, keyPaths_DeepPartial b p]
  | .arr u, p => by
    simp only [DeepPartial, keyPaths]
    exact mem_map_congr (fun q => keyPaths_deepPartialVal u q) _ p
  | .any, p => by simp [DeepPartial]
  | .unknown, p => by simp [DeepPartial]
  | .never, p => by simp [DeepPartial]
  | .str, p => by simp [DeepPartial]
  | .num, p => by simp [DeepPartial]
  | .bool, p => by simp [DeepPartial]
  | .strLit _, p => by simp [DeepPartial]
  | .numLit _, p => by simp [DeepPartial]
  | .boolLit _, p => by simp [DeepPartial]
  | .undef, p => by simp [DeepPartial]
  | .nul, p => by simp [DeepPartial]
termination_by t p => 2 * sizeOf t
decreasing_by
  all_goals simp_wf
  all_goals omega

/-- The field map of `DeepPartial` preserves key paths. -/
theorem keyPathsFields_deepPartialFields : ∀ (fs : Fields) (p : List Step),
    p ∈ keyPathsFields (deepPartialFields fs) ↔ p ∈ keyPathsFields fs
  | .nil, p => by simp [deepPartialFields]
  | .cons k t o r, p => by
    simp only [deepPartialFields, keyPathsFields, List.mem_cons, List.mem_append]
    rw [mem_map_congr (fun q => keyPaths_deepPartialVal t q) (fun q => Step.key k :: q) p,
      keyPathsFields_deepPartialFields r p]
termination_by fs p => 2 * sizeOf fs
decreasing_by
  all_goals simp_wf
  all_goals omega

/-- The per-field template of `DeepPartial` preserves key paths: a
matched array keeps its (possibly merged) element's paths, an
object-like value recurses, anything else is unchanged. -/
theorem keyPaths_deepPartialVal : ∀ (t : Ty) (p : List Step),
    p ∈ keyPaths (deepPartialVal t) ↔ p ∈ keyPaths t
  | t, p => by
    rw [deepPartialVal.eq_def]
    split
    next u harr =>
      have hu := arrayElem_sizeOf t u harr
      have hm : p ∈ keyPaths (Ty.arr (DeepPartial u)) ↔ p ∈ keyPaths (Ty.arr u) := by
        simp only [keyPaths]
        exact mem_map_congr (fun q => keyPaths_DeepPartial u q) _ p
      exact hm.trans (keyPaths_arrayElem t u harr p)
    next harr =>
      by_cases ho : isObjLike t
      · simpa [ho] using keyPaths_DeepPartial t p
      · simp [ho]
termination_by t p => 2 * sizeOf t + 1
decreasing_by
  all_goals simp_wf
  all_goals omega

end

mutual

/-- `DeepRequired` preserves the key paths of its input. -/
theorem keyPaths_DeepRequired : ∀ (t : Ty) (p : List Step),
    p ∈ keyPaths (DeepRequired t) ↔ p ∈ keyPaths t
  | .obj fs, p => by
    simp only [DeepRequired, keyPaths]
    exact keyPathsFields_deepRequiredFields fs p
  | .union a b, p => by
    simp only [DeepRequired, keyPaths, List.mem_append]
    rw [keyPaths_DeepRequired a p, keyPaths_DeepRequired b p]
  | .arr u, p => by
    simp only [DeepRequired, keyPaths]
    exact mem_map_congr (fun q => keyPaths_deepRequiredVal u q) _ p
  | .any, p => by simp [DeepRequired]
  | .unknown, p => by simp [DeepRequired]
  | .never, p => by simp [DeepRequired]
  | .str, p => by simp [DeepRequired]
  | .num, p => by simp [DeepRequired]
  | .bool, p => by simp [DeepRequired]
  | .strLit _, p => by simp [DeepRequired]
  | .numLit _, p => by simp [DeepRequired]
  | .boolLit _, p => by simp [DeepRequired]
  | .undef, p => by simp [DeepRequired]
  | .nul, p => by simp [DeepRequired]
termination_by t p => 2 * sizeOf t
decreasing_by
  all_goals simp_wf
  all_goals omega

/-- The field map of `DeepRequired` preserves key paths. -/
theorem keyPathsFields_deepRequiredFields : ∀ (fs : Fields) (p : List Step),
    p ∈ keyPathsFields (deepRequiredFields fs) ↔ p ∈ keyPathsFields fs
  | .nil, p => by simp [deepRequiredFields]
  | .cons k t o r, p => by
    simp only [deepRequiredFields, keyPathsFields, List.mem_cons, List.mem_append]
    rw [mem_map_congr (fun q => keyPaths_deepRequiredVal t q) (fun q => Step.key k :: q) p,
      keyPathsFields_deepRequiredFields r p]
termination_by fs p => 2 * sizeOf fs
decreasing_by
  all_goals simp_wf
  all_goals omega

/-- The per-field template of `DeepRequired` preserves key paths. -/
theorem keyPaths_deepRequiredVal : ∀ (t : Ty) (p : List Step),
    p ∈ keyPaths (deepRequiredVal t) ↔ p ∈ keyPaths t
  | t, p => by
    rw [deepRequiredVal.eq_def]
    split
    next u harr =>
      have hu := arrayElem_sizeOf t u harr
      have hm : p ∈ keyPaths (Ty.arr (DeepRequired u)) ↔ p ∈ keyPaths (Ty.arr u) := by
        simp only [keyPaths]
        exact mem_map_congr (fun q => keyPaths_DeepRequired u q) _ p
      exact hm.trans (keyPaths_arrayElem t u harr p)
    next harr =>
      by_cases ho : isObjLike t
      · simpa [ho] using keyPaths_DeepRequired t p
      · simp [ho]
termination_by t p => 2 * sizeOf t + 1
decreasing_by
  all_goals simp_wf
  all_goals omega

end

/-- C4 (counterexample): the claim "for every T and Shape, `Exact`
resolves to `T` exactly when T is assignable to Shape and keyof T has
no key outside keyof Shape, and to `never` in every other case" fails
at the concrete input `T = { a: number } | { b: number }`,
`Shape = { a: number }`: the union is not assignable to the shape, so
the claim predicts `never`, but the conditional distributes over the
naked parameter `T` and resolves to `{ a: number }` — neither `T` nor
`never`. -/
theorem Exact_union_neither_T_nor_never :
    tyExtends (Ty.union (Ty.obj (Fields.cons "a" Ty.num false Fields.nil))
        (Ty.obj (Fields.cons "b" Ty.num false Fields.nil)))
      (Ty.obj (Fields.cons "a" Ty.num false Fields.nil)) = false ∧
    Exact (Ty.union (Ty.obj (Fields.cons "a" Ty.num false Fields.nil))
        (Ty.obj (Fields.cons "b" Ty.num false Fields.nil)))
      (Ty.obj (Fields.cons "a" Ty.num false Fields.nil))
      = Ty.obj (Fields.cons "a" Ty.num false Fields.nil) ∧
    Ty.obj (Fields.cons "a" Ty.num false Fields.nil)
      ≠ Ty.union (Ty.obj (Fields.cons "a" Ty.num false Fields.nil))
          (Ty.obj (Fields.cons "b" Ty.num false Fields.nil)) ∧
    Ty.obj (Fields.cons "a" Ty.num false Fields.nil) ≠ Ty.never := by
  refine ⟨?_, ?_, by decide, by decide⟩
  · simp [tyExtends, fieldsExtend, Fields.lookup]
  · simp [Exact, unionNorm, keyofTy, excludeKeys, Fields.keys, tyExtends,
      fieldsExtend, Fields.lookup]

/-- C4 (amended): rejection is signalled only in the type domain, and
for every non-union object type `T`, `Exact< T, Shape >` resolves to
`T` exactly when `T` is assignable to `Shape` and `keyof T` contains
no key outside `keyof Shape`, and to the bottom type `never` in every
other case; for a union `T` the conditional distributes over the
members, so the result is the union of the per-member results and can
be a proper part of `T`, neither `T` nor `never`. -/
theorem Exact_object_resolves_to_T_or_never (t shape : Fields) :
    (Exact (Ty.obj t) (Ty.obj shape) = Ty.obj t ↔
      (tyExtends (Ty.obj t) (Ty.obj shape) = true ∧
        ∀ k ∈ t.keys, k ∈ shape.keys)) ∧
    (Exact (Ty.obj t) (Ty.obj shape) = Ty.obj t ∨
      Exact (Ty.obj t) (Ty.obj shape) = Ty.never) := by
  have hred : Exact (Ty.obj t) (Ty.obj shape)
      = (if tyExtends (Ty.obj t) (Ty.obj shape) then
          (if excludeKeys t.keys shape.keys = [] then Ty.obj t else Ty.never)
        else Ty.never) := by
    simp [Exact, keyofTy]
  rw [hred]
  by_cases h1 : tyExtends (Ty.obj t) (Ty.obj shape) = true
  · by_cases h2 : excludeKeys t.keys shape.keys = []
    · refine ⟨⟨fun _ => ⟨h1, (excludeKeys_eq_nil _ _).mp h2⟩, fun _ => ?_⟩, ?_⟩
      · simp [h1, h2]
      · left
        simp [h1, h2]
    · have hsub : ¬ (∀ k ∈ t.keys, k ∈ shape.keys) :=
        fun hs => h2 ((excludeKeys_eq_nil _ _).mpr hs)
      refine ⟨⟨fun he => ?_, fun hx => absurd hx.2 hsub⟩, ?_⟩
      · exfalso
        simp [h1, h2] at he
      · right
        simp [h1, h2]
  · refine ⟨⟨fun he => ?_, fun hx => absurd hx.1 h1⟩, ?_⟩
    · exfalso
      simp [h1] at he
    · right
      simp [h1]

/-- C4 (witness): the amended theorem applied at
`T = Shape = { a: number }`, where `Exact` resolves to `T`. -/
theorem Exact_object_resolves_to_T_or_never_witness :
    Exact (Ty.obj (Fields.cons "a" Ty.num false Fields.nil))
        (Ty.obj (Fields.cons "a" Ty.num false Fields.nil))
      = Ty.obj (Fields.cons "a" Ty.num false Fields.nil) :=
  (Exact_object_resolves_to_T_or_never (Fields.cons "a" Ty.num false Fields.nil)
    (Fields.cons "a" Ty.num false Fields.nil)).1.mpr
    ⟨by simp [tyExtends, fieldsExtend, Fields.lookup], by decide⟩

/-- C5: the deep mapped-type transforms operate per key without
changing the key set: `DeepPartial< T >` and `DeepRequired< T >` have
exactly the key paths of `T` — the same property keys at the same
nested positions, through objects, arrays and unions — so no key is
added or removed at any nesting level; only optionality modifiers and
the transformed value types change.  (The non-distributive
`Array< infer U >` match merges a union of array types into one array
of the union element, which rearranges union/array structure but
neither adds nor removes a key path.) -/
theorem deep_transforms_preserve_keys (t : Ty) (p : List Step) :
    (p ∈ keyPaths (DeepPartial t) ↔ p ∈ keyPaths t) ∧
    (p ∈ keyPaths (DeepRequired t) ↔ p ∈ keyPaths t) :=
  ⟨keyPaths_DeepPartial t p, keyPaths_DeepRequired t p⟩
